import Mathlib

/-!
Shallow embedding of `flake8/utils.py` (path normalization, comma-separated
list parsing, glob matching, the directory walker with its exclusion
predicate, and the stdin memoizer), together with proofs about the claims
of the specification.

Strings are modelled by Lean `String`; the character-level work is done on
`String.data` (a `List Char`) with executable structural definitions, so
that every function can be evaluated by `decide`/`rfl`/`simp` on concrete
inputs.  Python standard-library collaborators used by the module
(`str.split`, `str.strip`, `str.rstrip`, `os.path.join`, `os.path.abspath`,
`os.path.normpath` on POSIX, `fnmatch.fnmatch`, `os.walk`, `sys.stdin`) are
embedded from their documented POSIX semantics, since the module's own code
is written against them (`normalize_path` hard-codes the `'/'` separator).
-/

namespace Flake8

/-- The whitespace characters stripped by Python's `str.strip()` (ASCII part). -/
def isPySpace (c : Char) : Bool :=
  c = ' ' || c = '\t' || c = '\n' || c = '\x0b' || c = '\x0c' || c = '\r'

/-- `str.strip()` on the character list: drop whitespace from both ends. -/
def pystripL (l : List Char) : List Char :=
  ((l.dropWhile isPySpace).reverse.dropWhile isPySpace).reverse

/-- Python `str.strip()`. -/
def pystrip (s : String) : String := ⟨pystripL s.data⟩

/-- Python `str.split(sep)` for a one-character separator: split the character
list at every occurrence of `c`, keeping empty chunks (so `"".split(',') = ['']`
and `"a,,b".split(',') = ['a','','b']`). -/
def splitChar (c : Char) : List Char → List (List Char)
  | [] => [[]]
  | x :: xs =>
    if x = c then [] :: splitChar c xs
    else
      match splitChar c xs with
      | [] => [[x]]
      | r :: rs => (x :: r) :: rs

/-- `str.rstrip('/')`: drop every trailing `'/'`. -/
def rstripSlashL (l : List Char) : List Char :=
  (l.reverse.dropWhile (fun c => c = '/')).reverse

/-- POSIX `os.path.isabs`: the path starts with `'/'`. -/
def isAbsL (l : List Char) : Bool := l.head? = some '/'

/-- POSIX `os.path.join` for two arguments: if `b` is absolute it replaces
`a`; otherwise `b` is appended, inserting a `'/'` unless `a` is empty or
already ends with one. -/
def pyjoinL (a b : List Char) : List Char :=
  if b.head? = some '/' then b
  else if a = [] ∨ a.getLast? = some '/' then a ++ b
  else a ++ '/' :: b

/-- `os.path.join` on strings. -/
def pyjoin (a b : String) : String := ⟨pyjoinL a.data b.data⟩

/-- Concatenate path components with single `'/'` separators
(`'/'.join(comps)` at the character level). -/
def joinSlash : List (List Char) → List Char
  | [] => []
  | [c] => c
  | c :: c' :: cs => c ++ '/' :: joinSlash (c' :: cs)

/-- The count of meaningful leading slashes computed by POSIX
`os.path.normpath`: 0 for a relative path, 2 for exactly two leading
slashes, 1 otherwise. -/
def initialSlashes (l : List Char) : Nat :=
  if l.head? = some '/' then
    if l.take 2 = ['/', '/'] ∧ l.take 3 ≠ ['/', '/', '/'] then 2 else 1
  else 0

/-- The component loop of POSIX `os.path.normpath`: drop `''` and `'.'`
components, resolve `'..'` against the accumulated components (the
accumulator is kept reversed, its head being the most recent component). -/
def normComps (hasRoot : Bool) : List (List Char) → List (List Char) → List (List Char)
  | acc, [] => acc.reverse
  | acc, c :: cs =>
    if c = [] ∨ c = ['.'] then normComps hasRoot acc cs
    else if c ≠ ['.', '.'] ∨ (hasRoot = false ∧ acc = []) ∨ acc.head? = some ['.', '.'] then
      normComps hasRoot (c :: acc) cs
    else normComps hasRoot acc.tail cs

/-- POSIX `os.path.normpath` at the character level. -/
def normpathL (l : List Char) : List Char :=
  if l = [] then ['.']
  else
    let k := initialSlashes l
    let comps := normComps (k != 0) [] (splitChar '/' l)
    let p := List.replicate k '/' ++ joinSlash comps
    if p = [] then ['.'] else p

/-- POSIX `os.path.normpath`. -/
def normpath (s : String) : String := ⟨normpathL s.data⟩

/-- A normalized path component: nonempty, not `'.'`, not `'..'`, and free of
separators.  `normpathL` of an absolute path produces only such components;
this predicate drives the idempotence proof. -/
def GoodComp (c : List Char) : Prop := c ≠ [] ∧ c ≠ ['.'] ∧ c ≠ ['.', '.'] ∧ '/' ∉ c

/-- POSIX `os.path.abspath`: join onto the current working directory when the
path is not absolute, then normalize.  The process working directory
`os.getcwd()` is passed explicitly as `cwd`. -/
def abspath (cwd s : String) : String :=
  if isAbsL s.data then normpath s else normpath ⟨pyjoinL cwd.data s.data⟩

/-- `flake8.utils.parse_comma_separated_list`: the argument is either a single
string (split on `','`) or an already-split sequence; a falsy argument (empty
string or empty list) yields `[]`; every element is stripped. -/
def parse_comma_separated_list : String ⊕ List String → List String
  | Sum.inl s =>
    if s = "" then []
    else (splitChar ',' s.data).map (fun cs => pystrip ⟨cs⟩)
  | Sum.inr l =>
    if l = [] then []
    else l.map pystrip

/-- `flake8.utils.normalize_path`: if the path contains a `'/'`, replace it by
`os.path.abspath(os.path.join(parent, path))`; finally strip trailing
slashes.  `cwd` is the process working directory consulted by `abspath`. -/
def normalize_path (cwd parent path : String) : String :=
  let path2 := if '/' ∈ path.data then abspath cwd ⟨pyjoinL parent.data path.data⟩ else path
  ⟨rstripSlashL path2.data⟩

/-- `flake8.utils.normalize_paths`: parse the comma-separated list, then
normalize each element. -/
def normalize_paths (cwd : String) (paths : String ⊕ List String) (parent : String) :
    List String :=
  (parse_comma_separated_list paths).map (fun p => normalize_path cwd parent p)

/-- `flake8.utils.is_using_stdin`: the token `"-"` occurs in the path list. -/
def is_using_stdin (paths : List String) : Bool := paths.contains "-"

/-- A compiled token of a shell-glob pattern, as produced by
`fnmatch.translate`: literal character, `*` (any run), `?` (any single
character), or a bracket character class with a negation flag. -/
inductive GTok where
  | star : GTok
  | qmark : GTok
  | lit : Char → GTok
  | cls : Bool → List Char → GTok
  deriving DecidableEq

/-- Scan for the closing `']'` of a bracket expression, returning the class
body and the remainder of the pattern, or `none` when unterminated. -/
def scanBody : List Char → Option (List Char × List Char)
  | [] => none
  | ']' :: rest => some ([], rest)
  | c :: rest =>
    match scanBody rest with
    | some (cls, r) => some (c :: cls, r)
    | none => none

/-- Parse the inside of a bracket expression (the characters after `'['`):
a leading `'!'` negates; a `']'` right after `'['` or `'[!'` is a literal
member; an unterminated expression yields `none` (the `'['` is then treated
as a literal, as `fnmatch.translate` does). -/
def splitBracket (l : List Char) : Option (Bool × List Char × List Char) :=
  match l with
  | '!' :: t =>
    (match t with
     | ']' :: t2 =>
       (match scanBody t2 with
        | some (cls, r) => some (true, ']' :: cls, r)
        | none => none)
     | _ =>
       (match scanBody t with
        | some (cls, r) => some (true, cls, r)
        | none => none))
  | ']' :: t2 =>
    (match scanBody t2 with
     | some (cls, r) => some (false, ']' :: cls, r)
     | none => none)
  | _ =>
    (match scanBody l with
     | some (cls, r) => some (false, cls, r)
     | none => none)

/-- Character membership in a bracket class body, with `a-b` ranges
interpreted by code point as the compiled regular expression does; a `'-'`
without both endpoints is a literal. -/
def memberSet : List Char → Char → Bool
  | [], _ => false
  | a :: '-' :: b :: rest, c =>
    if a ≤ c ∧ c ≤ b then true else memberSet rest c
  | a :: rest, c => if a = c then true else memberSet rest c

/-- Tokenize a glob pattern.  The `fuel` argument bounds the recursion and is
always called with `fuel = pattern.length`, which suffices because every step
consumes at least one character; the `fuel = 0` fallback is unreachable under
that call pattern. -/
def compileTok : Nat → List Char → List GTok
  | _, [] => []
  | 0, _ :: _ => []
  | n + 1, '*' :: r => GTok.star :: compileTok n r
  | n + 1, '?' :: r => GTok.qmark :: compileTok n r
  | n + 1, '[' :: r =>
    (match splitBracket r with
     | some (neg, cls, rest) => GTok.cls neg cls :: compileTok n rest
     | none => GTok.lit '[' :: compileTok n r)
  | n + 1, c :: r => GTok.lit c :: compileTok n r

/-- Tokenize a glob pattern (entry point). -/
def compilePat (pat : List Char) : List GTok := compileTok pat.length pat

/-- Match a token list against a name, with the full-string-anchored
semantics of the regular expression produced by `fnmatch.translate`:
`star` matches an arbitrary (possibly empty) run of characters. -/
def gmatch : List GTok → List Char → Bool
  | [], n => n.isEmpty
  | GTok.star :: ps, n => n.tails.any (fun suf => gmatch ps suf)
  | GTok.qmark :: ps, n =>
    (match n with
     | [] => false
     | _ :: t => gmatch ps t)
  | GTok.lit c :: ps, n =>
    (match n with
     | [] => false
     | x :: t => x = c && gmatch ps t)
  | GTok.cls neg cs :: ps, n =>
    (match n with
     | [] => false
     | x :: t => (memberSet cs x != neg) && gmatch ps t)

/-- The external collaborator `fnmatch.fnmatch`, on a POSIX host where
`os.path.normcase` is the identity: shell-glob matching of `name` against
`pat`. -/
def fnmatchOne (name pat : String) : Bool := gmatch (compilePat pat.data) name.data

/-- `flake8.utils.fnmatch`: `default` when the pattern list is empty,
otherwise true iff any pattern matches. -/
def fnmatch (filename : String) (patterns : List String) (default : Bool) : Bool :=
  if patterns = [] then default
  else patterns.any (fun pattern => fnmatchOne filename pattern)

/-- A directory of the modelled filesystem: its immediate file names and its
named subdirectories, in listing order (the order `os.walk` reports). -/
inductive Tree where
  | mk (files : List String) (subdirs : List (String × Tree))

/-- The file loop of `filenames_from` at one visited directory (source lines
119–123): for each file name, call `predicate(filename)` and — only when that
returns false, because Python's `or` short-circuits — `predicate(joined)`;
yield the joined path when both are false.  Returns the pair (yielded paths,
trace of predicate arguments in call order). -/
def walkFilesLoop (p : String → Bool) (path : String) : List String → List String × List String
  | [] => ([], [])
  | f :: fs =>
    let j := pyjoin path f
    let rest := walkFilesLoop p path fs
    if p f then (rest.1, f :: rest.2)
    else if p j then (rest.1, f :: j :: rest.2)
    else (j :: rest.1, f :: j :: rest.2)

/-- Python `list.remove(name)` on a list whose elements are identified by
`key`: delete the first element whose key equals `name`. -/
def removeFirstBy {α : Type} (key : α → String) (n : String) : List α → List α
  | [] => []
  | x :: xs => if key x = n then xs else x :: removeFirstBy key n xs

/-- The subdirectory loop of `filenames_from` (source lines 126–128), with
Python's exact `for directory in sub_directories: if predicate(directory):
sub_directories.remove(directory)` semantics: the iterator advances by index,
so removing the current element shifts the next one into its place and the
iterator skips it.  Returns the surviving list and the trace of predicate
arguments. -/
def pruneLoop {α : Type} (key : α → String) (p : String → Bool) (l : List α) (i : Nat) :
    List α × List String :=
  if h : i < l.length then
    if p (key (l.get ⟨i, h⟩)) then
      let r := pruneLoop key p (removeFirstBy key (key (l.get ⟨i, h⟩)) l) (i + 1)
      (r.1, key (l.get ⟨i, h⟩) :: r.2)
    else
      let r := pruneLoop key p l (i + 1)
      (r.1, key (l.get ⟨i, h⟩) :: r.2)
  else (l, [])
  termination_by l.length - i
  decreasing_by
    · have hle : ∀ (m : String) (l' : List α), (removeFirstBy key m l').length ≤ l'.length := by
        intro m l'
        induction l' with
        | nil => simp [removeFirstBy]
        | cons y ys ih =>
          by_cases hy : key y = m
          · simp [removeFirstBy, hy]
          · simp only [removeFirstBy, if_neg hy, List.length_cons]
            omega
      exact lt_of_le_of_lt (Nat.sub_le_sub_right (hle _ l) (i + 1)) (by omega)
    · omega

/-- `os.walk(arg)` inlined with the body of `filenames_from`'s loop (source
lines 118–128): at each directory, run the file loop, then the pruning loop
on the live subdirectory list, then recurse top-down into the surviving
subdirectories in order.  First component: the yielded paths; second: the
trace of every predicate invocation, in call order. -/
def walk (p : String → Bool) (path : String) : Tree → List String × List String
  | Tree.mk files subdirs =>
    let fl := walkFilesLoop p path files
    let pr := pruneLoop (fun x => x.1.1) p subdirs.attach 0
    let sub := pr.1.map (fun x => walk p (pyjoin path x.1.1) x.1.2)
    (fl.1 ++ (sub.map Prod.fst).flatten, fl.2 ++ pr.2 ++ (sub.map Prod.snd).flatten)
  termination_by t => sizeOf t
  decreasing_by
    have h1 : sizeOf x.1 < sizeOf subdirs := List.sizeOf_lt_of_mem x.2
    obtain ⟨⟨n, t⟩, hmem⟩ := x
    simp only [Prod.mk.sizeOf_spec] at h1
    simp only [Tree.mk.sizeOf_spec]
    omega

/-- The default predicate of `filenames_from` (`_default_predicate`):
exclude nothing. -/
def default_predicate : String → Bool := fun _ => false

/-- `flake8.utils.filenames_from`: when `arg` names a directory (`fs = some
tree`, the content found by `os.path.isdir`/`os.walk`), walk it; otherwise
yield `arg` itself once, consulting nothing.  Result: (yielded paths, trace
of predicate invocations). -/
def filenames_from (arg : String) (predicate : Option (String → Bool)) (fs : Option Tree) :
    List String × List String :=
  let p := predicate.getD default_predicate
  match fs with
  | some t => walk p arg t
  | none => ([arg], [])

/-- `flake8.utils.stdin_get_value`, as a state transformer over the function
attribute `cached_stdin : Option String` (the cached `StringIO`, modelled by
the string it holds) with the piped input `stdin`.  The result triple is
(returned value or raised exception, new cache, whether `sys.stdin.read()`
was performed).  Mirrors the source faithfully: when the cache is unset the
code reads stdin and fills `stdin_get_value.cached_stdin`, but then evaluates
`cached_value.getvalue()` on the *local* `cached_value`, which is still
`None` — an `AttributeError`, modelled as `Except.error ()`. -/
def stdin_get_value (stdin : String) (cached_stdin : Option String) :
    Except Unit String × Option String × Bool :=
  match cached_stdin with
  | none => (Except.error (), some stdin, true)
  | some v => (Except.ok v, some v, false)

/-! ## Helper lemmas -/

theorem dropWhile_eq_self_of_forall {p : Char → Bool} {l : List Char}
    (h : ∀ c ∈ l, p c = false) : l.dropWhile p = l := by
  cases l with
  | nil => rfl
  | cons x xs =>
    rw [List.dropWhile_cons, h x (List.mem_cons_self x xs)]
    rfl

theorem rstripSlashL_of_not_mem {l : List Char} (h : '/' ∉ l) : rstripSlashL l = l := by
  unfold rstripSlashL
  rw [dropWhile_eq_self_of_forall, List.reverse_reverse]
  intro c hc
  simp only [decide_eq_false_iff_not]
  intro hce
  exact h (hce ▸ List.mem_reverse.mp hc)

theorem splitChar_eq_single {c : Char} {l : List Char} (h : c ∉ l) :
    splitChar c l = [l] := by
  induction l with
  | nil => rfl
  | cons x xs ih =>
    have hx : ¬ x = c := fun he => h (he ▸ List.mem_cons_self x xs)
    have hxs : c ∉ xs := fun hm => h (List.mem_cons_of_mem x hm)
    rw [splitChar, if_neg hx, ih hxs]

/-! ## Claim theorems (simple components) -/

/-- C10: for a root that is not a directory, `filenames_from` yields exactly
`[root]` and the predicate is never invoked (the call trace is empty),
whatever the predicate argument is. -/
theorem filenames_from_non_directory (arg : String) (predicate : Option (String → Bool)) :
    filenames_from arg predicate none = ([arg], []) := rfl

/-- C3 (code bug): on the very first call (empty cache) `stdin_get_value`
does read stdin and fill the cache, but then raises `AttributeError`
(`Except.error ()`) instead of returning the piped input, because the local
`cached_value` is still `None`; subsequent calls return the cached string
without reading stdin again. -/
theorem stdin_get_value_first_call_raises (s c : String) :
    stdin_get_value s none = (Except.error (), some s, true) ∧
    stdin_get_value s (some c) = (Except.ok c, some c, false) :=
  ⟨rfl, rfl⟩

/-- C9: `parse_comma_separated_list` splits on `','` and strips each element
preserving order, and maps both empty inputs (empty string, empty list)
to `[]`. -/
theorem parse_comma_separated_list_contract :
    parse_comma_separated_list (Sum.inl "a, b ,c") = ["a", "b", "c"] ∧
    parse_comma_separated_list (Sum.inl "") = [] ∧
    parse_comma_separated_list (Sum.inr []) = [] := by
  refine ⟨?_, rfl, rfl⟩
  decide

/-- C5 (counterexample): the claim `parse_comma_separated_list s = [s.strip()]`
for **every** comma-free string fails at the empty string: the code returns
`[]`, not `[""]`. -/
theorem parse_comma_separated_list_empty_counterexample :
    parse_comma_separated_list (Sum.inl "") ≠ [pystrip ""] := by
  decide

/-- C5 (amended): for every **non-empty** string with no comma,
`parse_comma_separated_list` returns the one-element list of the stripped
string. -/
theorem parse_comma_separated_list_no_comma (s : String) (h1 : s ≠ "")
    (h2 : ',' ∉ s.data) :
    parse_comma_separated_list (Sum.inl s) = [pystrip s] := by
  show (if s = "" then [] else (splitChar ',' s.data).map (fun cs => pystrip ⟨cs⟩)) = _
  rw [if_neg h1, splitChar_eq_single h2]
  rfl

theorem parse_comma_separated_list_no_comma_witness :
    parse_comma_separated_list (Sum.inl " a ") = [pystrip " a "] :=
  parse_comma_separated_list_no_comma " a " (by decide) (by decide)

/-- C7: `normalize_path` replaces a path containing a separator by the
absolute form of `join(parent, path)` and strips trailing separators; a path
without a separator is returned unchanged.  (Totality — always returning a
string with no error condition — is inherent in the type of the Lean
embedding.) -/
theorem normalize_path_spec (cwd parent path : String) :
    normalize_path cwd parent path =
      if '/' ∈ path.data then
        ⟨rstripSlashL (abspath cwd ⟨pyjoinL parent.data path.data⟩).data⟩
      else path := by
  show String.mk (rstripSlashL (if '/' ∈ path.data then
      abspath cwd ⟨pyjoinL parent.data path.data⟩ else path).data) = _
  by_cases h : '/' ∈ path.data
  · rw [if_pos h, if_pos h]
  · rw [if_neg h, if_neg h, rstripSlashL_of_not_mem h]

/-- C8: `fnmatch` returns `default` on an empty pattern list, and on a
non-empty list returns true iff the filename matches at least one pattern
under the embedded shell-glob semantics.  (Purity and totality are inherent
in the Lean embedding.) -/
theorem fnmatch_empty_default_and_any_match (f q : String) (qs : List String) (d : Bool) :
    fnmatch f [] d = d ∧
    (fnmatch f (q :: qs) d = true ↔ ∃ pat ∈ q :: qs, fnmatchOne f pat = true) := by
  constructor
  · rfl
  · unfold fnmatch
    rw [if_neg (by simp)]
    exact List.any_eq_true

/-! ## Walker lemmas -/

theorem removeFirstBy_map {α β : Type} (key : α → String) (g : β → α) (n : String)
    (l : List β) :
    removeFirstBy key n (l.map g) = (removeFirstBy (fun b => key (g b)) n l).map g := by
  induction l with
  | nil => rfl
  | cons x xs ih =>
    simp only [List.map_cons, removeFirstBy]
    by_cases h : key (g x) = n
    · simp [h]
    · simp [h, ih]

theorem pruneLoop_map {α β : Type} (key : α → String) (g : β → α) (p : String → Bool)
    (l : List β) (i : Nat) :
    pruneLoop key p (l.map g) i =
      (((pruneLoop (fun b => key (g b)) p l i).1).map g,
        (pruneLoop (fun b => key (g b)) p l i).2) := by
  refine pruneLoop.induct (fun b => key (g b)) p
    (fun l i => pruneLoop key p (l.map g) i =
      (((pruneLoop (fun b => key (g b)) p l i).1).map g,
        (pruneLoop (fun b => key (g b)) p l i).2)) ?_ ?_ ?_ l i
  · intro l i h hp ih
    rw [pruneLoop.eq_def]
    conv_rhs => rw [pruneLoop.eq_def]
    simp only [List.length_map, dif_pos h, List.get_eq_getElem, List.getElem_map] at hp ih ⊢
    rw [if_pos hp, if_pos hp, removeFirstBy_map, ih]
  · intro l i h hp ih
    rw [pruneLoop.eq_def]
    conv_rhs => rw [pruneLoop.eq_def]
    simp only [List.length_map, dif_pos h, List.get_eq_getElem, List.getElem_map] at hp ih ⊢
    rw [if_neg hp, if_neg hp, ih]
  · intro l i h
    rw [pruneLoop.eq_def]
    conv_rhs => rw [pruneLoop.eq_def]
    simp only [List.length_map, dif_neg h]

theorem attach_map_subval {α : Type} (l : List α) : l.attach.map Subtype.val = l := by
  simp

/-- Unfolding of `walk` at one directory level, with the pruning loop
expressed over the plain `(name, subtree)` pairs. -/
theorem walk_eq (p : String → Bool) (path : String) (files : List String)
    (subdirs : List (String × Tree)) :
    walk p path (Tree.mk files subdirs) =
      ((walkFilesLoop p path files).1 ++
        ((pruneLoop Prod.fst p subdirs 0).1.map
          (fun nt => (walk p (pyjoin path nt.1) nt.2).1)).flatten,
       (walkFilesLoop p path files).2 ++ (pruneLoop Prod.fst p subdirs 0).2 ++
        ((pruneLoop Prod.fst p subdirs 0).1.map
          (fun nt => (walk p (pyjoin path nt.1) nt.2).2)).flatten) := by
  have hmap := pruneLoop_map (Prod.fst : String × Tree → String) (Subtype.val) p
    subdirs.attach 0
  rw [attach_map_subval] at hmap
  rw [walk, hmap]
  simp only [List.map_map]
  rfl

theorem walkFilesLoop_fst (p : String → Bool) (path : String) (files : List String) :
    (walkFilesLoop p path files).1 =
      (files.filter (fun f => !(p f || p (pyjoin path f)))).map (pyjoin path) := by
  induction files with
  | nil => rfl
  | cons f fs ih =>
    simp only [walkFilesLoop, List.filter_cons]
    by_cases h1 : p f
    · simp [h1, ih]
    · by_cases h2 : p (pyjoin path f)
      · simp [h1, h2, ih]
      · simp [h1, h2, ih]

theorem walkFilesLoop_snd (p : String → Bool) (path : String) (files : List String) :
    (walkFilesLoop p path files).2 =
      (files.map (fun f => if p f then [f] else [f, pyjoin path f])).flatten := by
  induction files with
  | nil => rfl
  | cons f fs ih =>
    simp only [walkFilesLoop, List.map_cons, List.flatten_cons]
    by_cases h1 : p f
    · simp [h1, ih]
    · by_cases h2 : p (pyjoin path f)
      · simp [h1, h2, ih]
      · simp [h1, h2, ih]

theorem removeFirstBy_sublist {α : Type} (key : α → String) (n : String) (l : List α) :
    (removeFirstBy key n l).Sublist l := by
  induction l with
  | nil => exact List.Sublist.refl _
  | cons x xs ih =>
    by_cases h : key x = n
    · simp only [removeFirstBy, if_pos h]
      exact List.sublist_cons_self x xs
    · simp only [removeFirstBy, if_neg h]
      exact ih.cons₂ x

/-- Every predicate argument recorded by the pruning loop is the key (the
bare name) of some element of the subdirectory list. -/
theorem pruneLoop_trace_mem {α : Type} (key : α → String) (p : String → Bool)
    (l : List α) (i : Nat) (d : String) (hd : d ∈ (pruneLoop key p l i).2) :
    d ∈ l.map key := by
  refine pruneLoop.induct key p
    (fun l i => ∀ d, d ∈ (pruneLoop key p l i).2 → d ∈ l.map key) ?_ ?_ ?_ l i d hd
  · intro l i h hp ih d hd
    rw [pruneLoop.eq_def, dif_pos h, if_pos hp] at hd
    rcases List.mem_cons.mp hd with h1 | h2
    · exact h1 ▸ List.mem_map_of_mem key (l.get_mem i h)
    · exact ((removeFirstBy_sublist key _ l).map key).subset (ih d h2)
  · intro l i h hp ih d hd
    rw [pruneLoop.eq_def, dif_pos h, if_neg hp] at hd
    rcases List.mem_cons.mp hd with h1 | h2
    · exact h1 ▸ List.mem_map_of_mem key (l.get_mem i h)
    · exact ih d h2
  · intro l i h d hd
    rw [pruneLoop.eq_def, dif_neg h] at hd
    exact absurd hd (List.not_mem_nil d)

/-! ## Claim theorems (walker) -/

/-- C2: at every directory visited by the traversal, a file `f` contributes a
yield exactly when both `predicate(f)` and `predicate(join(dir, f))` are
false, and what is yielded is the joined path (then the traversal continues
into the surviving subdirectories). -/
theorem filenames_from_yields_filtered_joined (p : String → Bool) (path : String)
    (files : List String) (subdirs : List (String × Tree)) :
    (filenames_from path (some p) (some (Tree.mk files subdirs))).1 =
      (files.filter (fun f => !(p f || p (pyjoin path f)))).map (pyjoin path) ++
      ((pruneLoop Prod.fst p subdirs 0).1.map
        (fun nt => (walk p (pyjoin path nt.1) nt.2).1)).flatten := by
  show (walk p path (Tree.mk files subdirs)).1 = _
  rw [walk_eq]
  show (walkFilesLoop p path files).1 ++ _ = _
  rw [walkFilesLoop_fst]

/-- C4 (counterexample): for a candidate file excluded by its bare name the
predicate is invoked only once — Python's `or` short-circuits, so the joined
path is never passed; the claim's "invoked twice regardless of what the
first invocation returns" is false. -/
theorem predicate_not_invoked_twice_counterexample :
    (walkFilesLoop (fun s => s == "a.py") "r" ["a.py"]).2 = ["a.py"] ∧
    ((walkFilesLoop (fun s => s == "a.py") "r" ["a.py"]).2).length ≠ 2 := by
  constructor
  · rfl
  · decide

/-- C4 (amended): for every candidate file the predicate is invoked with the
bare name, and with the joined path exactly when the bare-name invocation
returned false; every invocation made by the subdirectory pruning loop uses
the bare name of some listed subdirectory (never a joined path). -/
theorem predicate_call_shapes {α : Type} (key : α → String) (p : String → Bool)
    (path : String) (files : List String) (l : List α) (i : Nat) :
    (walkFilesLoop p path files).2 =
      (files.map (fun f => if p f then [f] else [f, pyjoin path f])).flatten ∧
    ((pruneLoop key p l i).2.all (fun d => decide (d ∈ l.map key))) = true := by
  refine ⟨walkFilesLoop_snd p path files, ?_⟩
  rw [List.all_eq_true]
  intro d hd
  exact decide_eq_true (pruneLoop_trace_mem key p l i d hd)

/-- C1 (code bug): with two *adjacent* excluded subdirectories `sa, sb`, the
remove-while-iterating loop deletes `sa` and then skips over `sb` (the
iterator's next index now points past it), so the traversal descends into
the excluded `sb` and yields `root/sb/inner.py` — contradicting the claim
that no path under an excluded subdirectory is ever yielded. -/
theorem filenames_from_adjacent_excluded_dirs_bug :
    ((fun s => s == "sa" || s == "sb") : String → Bool) "sb" = true ∧
    (filenames_from "root" (some (fun s => s == "sa" || s == "sb"))
      (some (Tree.mk [] [("sa", Tree.mk [] []), ("sb", Tree.mk ["inner.py"] [])]))).1 =
      ["root/sb/inner.py"] := by
  constructor
  · decide
  · have e1 : pruneLoop (Prod.fst : String × Tree → String) (fun s => s == "sa" || s == "sb")
        [("sa", Tree.mk [] []), ("sb", Tree.mk ["inner.py"] [])] 0 =
        ([("sb", Tree.mk ["inner.py"] [])], ["sa"]) := by
      rw [pruneLoop.eq_def]
      norm_num [removeFirstBy]
      rw [pruneLoop.eq_def]
      norm_num
    show (walk (fun s => s == "sa" || s == "sb") "root"
      (Tree.mk [] [("sa", Tree.mk [] []), ("sb", Tree.mk ["inner.py"] [])])).1 = _
    rw [walk_eq, e1]
    simp only [List.map_cons, List.map_nil]
    rw [walk_eq]
    have e2 : pruneLoop (Prod.fst : String × Tree → String) (fun s => s == "sa" || s == "sb")
        ([] : List (String × Tree)) 0 = ([], []) := by
      rw [pruneLoop.eq_def]; norm_num
    rw [e2]
    simp only [List.map_nil, List.flatten_nil, List.flatten_cons, List.append_nil,
      List.nil_append]
    decide

/-! ## Path normalization lemmas (claim C6) -/

theorem splitChar_ne_nil (c : Char) (l : List Char) : splitChar c l ≠ [] := by
  cases l with
  | nil => simp [splitChar]
  | cons x xs =>
    rw [splitChar]
    by_cases h : x = c
    · simp [h]
    · rw [if_neg h]
      cases hs : splitChar c xs <;> simp

theorem not_mem_of_mem_splitChar {c : Char} {l : List Char} :
    ∀ q ∈ splitChar c l, c ∉ q := by
  induction l with
  | nil =>
    intro q hq
    rw [splitChar] at hq
    simp at hq
    simp [hq]
  | cons x xs ih =>
    intro q hq
    rw [splitChar] at hq
    by_cases h : x = c
    · rw [if_pos h] at hq
      rcases List.mem_cons.mp hq with h1 | h2
      · simp [h1]
      · exact ih q h2
    · rw [if_neg h] at hq
      cases hs : splitChar c xs with
      | nil => exact absurd hs (splitChar_ne_nil c xs)
      | cons r rs =>
        rw [hs] at hq
        rcases List.mem_cons.mp hq with h1 | h2
        · subst h1
          intro hmem
          rcases List.mem_cons.mp hmem with h3 | h4
          · exact h (h3.symm)
          · exact ih r (hs ▸ List.mem_cons_self r rs) h4
        · exact ih q (hs ▸ List.mem_cons_of_mem r h2)

theorem splitChar_append_sep {c : Char} {a : List Char} (ha : c ∉ a) (r : List Char) :
    splitChar c (a ++ c :: r) = a :: splitChar c r := by
  induction a with
  | nil => simp [splitChar]
  | cons x a' ih =>
    have hx : ¬ x = c := fun he => ha (he ▸ List.mem_cons_self x a')
    have ha' : c ∉ a' := fun hm => ha (List.mem_cons_of_mem x hm)
    rw [List.cons_append, splitChar, if_neg hx, ih ha']

theorem splitChar_joinSlash {comps : List (List Char)} (hne : comps ≠ [])
    (hc : ∀ q ∈ comps, '/' ∉ q) :
    splitChar '/' (joinSlash comps) = comps := by
  induction comps with
  | nil => exact absurd rfl hne
  | cons c cs ih =>
    cases cs with
    | nil =>
      rw [joinSlash]
      exact splitChar_eq_single (hc c (List.mem_cons_self c []))
    | cons c' cs' =>
      rw [joinSlash, splitChar_append_sep (hc c (List.mem_cons_self c _))]
      rw [ih (by simp) (fun q hq => hc q (List.mem_cons_of_mem c hq))]

theorem splitChar_replicate_sep (k : Nat) (rest : List Char) :
    splitChar '/' (List.replicate k '/' ++ rest) =
      List.replicate k [] ++ splitChar '/' rest := by
  induction k with
  | zero => simp
  | succ n ih =>
    rw [List.replicate_succ, List.cons_append, splitChar, if_pos rfl, ih,
      List.replicate_succ, List.cons_append]

theorem normComps_replicate_nil (h : Bool) (acc : List (List Char)) (k : Nat)
    (cs : List (List Char)) :
    normComps h acc (List.replicate k [] ++ cs) = normComps h acc cs := by
  induction k with
  | zero => simp
  | succ n ih =>
    rw [List.replicate_succ, List.cons_append, normComps, if_pos (Or.inl rfl), ih]

theorem normComps_all_good (h : Bool) (cs : List (List Char))
    (hcs : ∀ c ∈ cs, GoodComp c) :
    ∀ acc, normComps h acc cs = acc.reverse ++ cs := by
  induction cs with
  | nil => intro acc; simp [normComps]
  | cons c rest ih =>
    intro acc
    obtain ⟨h1, h2, h3, _⟩ := hcs c (List.mem_cons_self c rest)
    rw [normComps, if_neg (by simp [h1, h2]), if_pos (Or.inl h3),
      ih (fun q hq => hcs q (List.mem_cons_of_mem c hq))]
    simp

theorem normComps_good_output (cs : List (List Char)) (hcs : ∀ c ∈ cs, '/' ∉ c) :
    ∀ acc, (∀ c ∈ acc, GoodComp c) → ∀ c ∈ normComps true acc cs, GoodComp c := by
  induction cs with
  | nil =>
    intro acc hacc c hc
    rw [normComps] at hc
    exact hacc c (List.mem_reverse.mp hc)
  | cons c rest ih =>
    intro acc hacc q hq
    have hrest : ∀ c ∈ rest, '/' ∉ c := fun x hx => hcs x (List.mem_cons_of_mem c hx)
    rw [normComps] at hq
    by_cases hskip : c = [] ∨ c = ['.']
    · rw [if_pos hskip] at hq
      exact ih hrest acc hacc q hq
    · rw [if_neg hskip] at hq
      have hnotdd : acc.head? ≠ some ['.', '.'] := by
        intro hhead
        have : (['.', '.'] : List Char) ∈ acc := by
          cases acc with
          | nil => simp at hhead
          | cons a as =>
            simp at hhead
            exact hhead ▸ List.mem_cons_self a as
        exact ((hacc _ this).2.2.1) rfl
      by_cases hdd : c ≠ ['.', '.'] ∨ (true = false ∧ acc = []) ∨ acc.head? = some ['.', '.']
      · rw [if_pos hdd] at hq
        have hcgood : GoodComp c := by
          push_neg at hskip
          rcases hdd with h | h | h
          · exact ⟨hskip.1, hskip.2, h, hcs c (List.mem_cons_self c rest)⟩
          · exact absurd h.1 (by simp)
          · exact absurd h hnotdd
        refine ih hrest (c :: acc) ?_ q hq
        intro x hx
        rcases List.mem_cons.mp hx with h1 | h2
        · exact h1 ▸ hcgood
        · exact hacc x h2
      · rw [if_neg hdd] at hq
        refine ih hrest acc.tail ?_ q hq
        intro x hx
        exact hacc x (List.mem_of_mem_tail hx)

theorem rstripSlashL_getLast {l : List Char} {ch : Char} (h : l.getLast? = some ch)
    (hch : ch ≠ '/') : rstripSlashL l = l := by
  unfold rstripSlashL
  have hrev : l.reverse.head? = some ch := by rw [List.head?_reverse, h]
  cases hr : l.reverse with
  | nil => simp [hr] at hrev
  | cons x xs =>
    rw [hr] at hrev
    simp at hrev
    rw [List.dropWhile_cons, hrev]
    simp [hch]
    have hl := congrArg List.reverse hr
    rw [List.reverse_reverse, List.reverse_cons] at hl
    rw [hl, hrev]

theorem rstripSlashL_replicate (k : Nat) : rstripSlashL (List.replicate k '/') = [] := by
  unfold rstripSlashL
  rw [List.reverse_replicate]
  have : (List.replicate k '/').dropWhile (fun c => c = '/') = [] := by
    induction k with
    | zero => rfl
    | succ n ih => rw [List.replicate_succ, List.dropWhile_cons]; simp [ih]
  rw [this]
  rfl

theorem joinSlash_cons_append (c : List Char) (rest : List (List Char)) :
    ∃ t, joinSlash (c :: rest) = c ++ t := by
  cases rest with
  | nil => exact ⟨[], by rw [joinSlash, List.append_nil]⟩
  | cons c' cs => exact ⟨'/' :: joinSlash (c' :: cs), rfl⟩

theorem joinSlash_getLast {comps : List (List Char)} (hne : comps ≠ [])
    (hc : ∀ c ∈ comps, c ≠ [] ∧ '/' ∉ c) :
    ∃ ch, (joinSlash comps).getLast? = some ch ∧ ch ≠ '/' := by
  induction comps with
  | nil => exact absurd rfl hne
  | cons c cs ih =>
    cases cs with
    | nil =>
      obtain ⟨h1, h2⟩ := hc c (List.mem_cons_self c [])
      refine ⟨c.getLast h1, by rw [joinSlash]; exact List.getLast?_eq_getLast_of_ne_nil h1, ?_⟩
      intro he
      exact h2 (he ▸ List.getLast_mem h1)
    | cons c' cs' =>
      obtain ⟨ch, hch, hne2⟩ := ih (by simp)
        (fun q hq => hc q (List.mem_cons_of_mem c hq))
      refine ⟨ch, ?_, hne2⟩
      have hJ : joinSlash (c' :: cs') ≠ [] := by
        intro he
        rw [he] at hch
        simp at hch
      rw [joinSlash, List.getLast?_append_of_ne_nil _ (by simp)]
      cases hJ2 : joinSlash (c' :: cs') with
      | nil => exact absurd hJ2 hJ
      | cons y ys =>
        rw [hJ2] at hch
        rw [List.getLast?_cons_cons]
        exact hch

theorem initialSlashes_one {ch : Char} (r : List Char) (h : ch ≠ '/') :
    initialSlashes ('/' :: ch :: r) = 1 := by
  unfold initialSlashes
  rw [if_pos (show ('/' :: ch :: r).head? = some '/' from rfl), if_neg]
  rintro ⟨h1, -⟩
  rw [show List.take 2 ('/' :: ch :: r) = ['/', ch] from rfl] at h1
  simp at h1
  exact h h1

theorem initialSlashes_two {ch : Char} (r : List Char) (h : ch ≠ '/') :
    initialSlashes ('/' :: '/' :: ch :: r) = 2 := by
  unfold initialSlashes
  rw [if_pos (show ('/' :: '/' :: ch :: r).head? = some '/' from rfl), if_pos]
  refine ⟨rfl, ?_⟩
  rw [show List.take 3 ('/' :: '/' :: ch :: r) = ['/', '/', ch] from rfl]
  simp [h]

theorem normpathL_abs_form {l : List Char} (h : isAbsL l = true) :
    ∃ comps, (∀ c ∈ comps, GoodComp c) ∧ 1 ≤ initialSlashes l ∧ initialSlashes l ≤ 2 ∧
      normpathL l = List.replicate (initialSlashes l) '/' ++ joinSlash comps := by
  have hhead : l.head? = some '/' := of_decide_eq_true h
  have hl : l ≠ [] := by
    intro he
    rw [he] at hhead
    simp at hhead
  have hk1 : 1 ≤ initialSlashes l := by
    unfold initialSlashes
    rw [if_pos hhead]
    split
    · omega
    · omega
  have hk2 : initialSlashes l ≤ 2 := by
    unfold initialSlashes
    rw [if_pos hhead]
    split
    · omega
    · omega
  refine ⟨normComps true [] (splitChar '/' l), ?_, hk1, hk2, ?_⟩
  · exact normComps_good_output (splitChar '/' l)
      (fun q hq => not_mem_of_mem_splitChar q hq) [] (by simp)
  · have hflag : ((initialSlashes l) != 0) = true := by
      simp only [bne_iff_ne, ne_eq]
      omega
    have hrep : List.replicate (initialSlashes l) '/' ≠ [] := by
      simp only [ne_eq, List.replicate_eq_nil_iff]
      omega
    unfold normpathL
    rw [if_neg hl]
    simp only [hflag]
    rw [if_neg (fun hcon => hrep (List.append_eq_nil.mp hcon).1)]

theorem normpathL_fixed {k : Nat} {comps : List (List Char)} (hk1 : 1 ≤ k) (hk2 : k ≤ 2)
    (hne : comps ≠ []) (hg : ∀ c ∈ comps, GoodComp c) :
    normpathL (List.replicate k '/' ++ joinSlash comps) =
      List.replicate k '/' ++ joinSlash comps := by
  obtain ⟨c₁, rest, rfl⟩ : ∃ c₁ rest, comps = c₁ :: rest := by
    cases comps with
    | nil => exact absurd rfl hne
    | cons a b => exact ⟨a, b, rfl⟩
  obtain ⟨hc1ne, -, -, hc1slash⟩ := hg c₁ (List.mem_cons_self c₁ rest)
  obtain ⟨ch, c₁', rfl⟩ : ∃ ch c₁', c₁ = ch :: c₁' := by
    cases c₁ with
    | nil => exact absurd rfl hc1ne
    | cons a b => exact ⟨a, b, rfl⟩
  have hch : ch ≠ '/' := by
    intro he
    exact hc1slash (he ▸ List.mem_cons_self ch c₁')
  obtain ⟨t, hjoin⟩ := joinSlash_cons_append (ch :: c₁') rest
  have hlne : List.replicate k '/' ++ joinSlash ((ch :: c₁') :: rest) ≠ [] := by
    intro hcon
    have : List.replicate k '/' = [] := (List.append_eq_nil.mp hcon).1
    simp only [List.replicate_eq_nil_iff] at this
    omega
  have hinit : initialSlashes (List.replicate k '/' ++ joinSlash ((ch :: c₁') :: rest)) = k := by
    interval_cases k
    · rw [hjoin]
      rw [show List.replicate 1 '/' ++ ((ch :: c₁') ++ t) = '/' :: ch :: (c₁' ++ t) from rfl]
      exact initialSlashes_one _ hch
    · rw [hjoin]
      rw [show List.replicate 2 '/' ++ ((ch :: c₁') ++ t) = '/' :: '/' :: ch :: (c₁' ++ t)
        from rfl]
      exact initialSlashes_two _ hch
  have hflag : (k != 0) = true := by
    simp only [bne_iff_ne, ne_eq]
    omega
  have hsplit : splitChar '/' (List.replicate k '/' ++ joinSlash ((ch :: c₁') :: rest)) =
      List.replicate k [] ++ ((ch :: c₁') :: rest) := by
    rw [splitChar_replicate_sep, splitChar_joinSlash (by simp)
      (fun q hq => (hg q hq).2.2.2)]
  unfold normpathL
  rw [if_neg hlne, hinit]
  simp only [hflag, hsplit, normComps_replicate_nil]
  rw [normComps_all_good true _ hg []]
  simp only [List.reverse_nil, List.nil_append]
  rw [if_neg hlne]

theorem isAbsL_iff {l : List Char} : isAbsL l = true ↔ l.head? = some '/' := by
  unfold isAbsL
  exact decide_eq_true_iff

theorem isAbsL_pyjoinL {a : List Char} (b : List Char) (h : isAbsL a = true) :
    isAbsL (pyjoinL a b) = true := by
  have hhead := isAbsL_iff.mp h
  obtain ⟨a', rfl⟩ : ∃ a', a = '/' :: a' := by
    cases a with
    | nil => simp at hhead
    | cons x xs =>
      simp at hhead
      exact ⟨xs, by rw [hhead]⟩
  unfold pyjoinL
  by_cases h1 : b.head? = some '/'
  · rw [if_pos h1]
    exact isAbsL_iff.mpr h1
  · rw [if_neg h1]
    by_cases h2 : ('/' :: a') = [] ∨ ('/' :: a').getLast? = some '/'
    · rw [if_pos h2]
      exact isAbsL_iff.mpr rfl
    · rw [if_neg h2]
      exact isAbsL_iff.mpr rfl

theorem pyjoinL_abs_right (a : List Char) {b : List Char} (h : isAbsL b = true) :
    pyjoinL a b = b := by
  unfold pyjoinL
  rw [if_pos (isAbsL_iff.mp h)]

theorem abspath_normpathL (cwd s : String) (hcwd : isAbsL cwd.data = true) :
    ∃ u : List Char, isAbsL u = true ∧ abspath cwd s = ⟨normpathL u⟩ := by
  unfold abspath
  by_cases h : isAbsL s.data = true
  · rw [if_pos h]
    exact ⟨s.data, h, rfl⟩
  · rw [if_neg h]
    exact ⟨pyjoinL cwd.data s.data, isAbsL_pyjoinL s.data hcwd, rfl⟩

theorem normalize_path_no_slash (cwd parent p : String) (h : '/' ∉ p.data) :
    normalize_path cwd parent p = p := by
  show String.mk (rstripSlashL (if '/' ∈ p.data then
      abspath cwd ⟨pyjoinL parent.data p.data⟩ else p).data) = p
  rw [if_neg h, rstripSlashL_of_not_mem h]

theorem normalize_path_fixed_abs (cwd parent : String) {k : Nat} {comps : List (List Char)}
    (hk1 : 1 ≤ k) (hk2 : k ≤ 2) (hcomps : comps ≠ [])
    (hgood : ∀ c ∈ comps, GoodComp c) :
    rstripSlashL (List.replicate k '/' ++ joinSlash comps) =
      List.replicate k '/' ++ joinSlash comps ∧
    normalize_path cwd parent ⟨List.replicate k '/' ++ joinSlash comps⟩ =
      ⟨List.replicate k '/' ++ joinSlash comps⟩ := by
  obtain ⟨k', rfl⟩ : ∃ k', k = k' + 1 := ⟨k - 1, by omega⟩
  have habs : isAbsL (List.replicate (k' + 1) '/' ++ joinSlash comps) = true := by
    apply isAbsL_iff.mpr
    rw [List.replicate_succ, List.cons_append]
    rfl
  have hmem : '/' ∈ List.replicate (k' + 1) '/' ++ joinSlash comps :=
    List.mem_append_left _ (List.mem_replicate.mpr ⟨by omega, rfl⟩)
  obtain ⟨ch, hlast, hch⟩ := joinSlash_getLast hcomps
    (fun c hc => ⟨(hgood c hc).1, (hgood c hc).2.2.2⟩)
  have hJne : joinSlash comps ≠ [] := by
    intro he
    rw [he] at hlast
    simp at hlast
  have hlast2 : (List.replicate (k' + 1) '/' ++ joinSlash comps).getLast? = some ch := by
    rw [List.getLast?_append_of_ne_nil _ hJne]
    exact hlast
  have hq : rstripSlashL (List.replicate (k' + 1) '/' ++ joinSlash comps) =
      List.replicate (k' + 1) '/' ++ joinSlash comps := rstripSlashL_getLast hlast2 hch
  refine ⟨hq, ?_⟩
  show String.mk (rstripSlashL
    (if '/' ∈ (⟨List.replicate (k' + 1) '/' ++ joinSlash comps⟩ : String).data then
      abspath cwd
        ⟨pyjoinL parent.data (⟨List.replicate (k' + 1) '/' ++ joinSlash comps⟩ : String).data⟩
      else (⟨List.replicate (k' + 1) '/' ++ joinSlash comps⟩ : String)).data) = _
  rw [if_pos hmem]
  rw [show (⟨List.replicate (k' + 1) '/' ++ joinSlash comps⟩ : String).data =
      List.replicate (k' + 1) '/' ++ joinSlash comps from rfl]
  rw [pyjoinL_abs_right parent.data habs]
  have habspath : abspath cwd ⟨List.replicate (k' + 1) '/' ++ joinSlash comps⟩ =
      ⟨normpathL (List.replicate (k' + 1) '/' ++ joinSlash comps)⟩ := by
    unfold abspath
    rw [if_pos habs]
    rfl
  rw [habspath, normpathL_fixed (by omega) hk2 hcomps hgood]
  rw [show (⟨List.replicate (k' + 1) '/' ++ joinSlash comps⟩ : String).data =
      List.replicate (k' + 1) '/' ++ joinSlash comps from rfl]
  rw [hq]

/-- C6: `normalize_path` is idempotent, for every path and parent, under the
process invariant that `os.getcwd()` returns an absolute path (`cwd` starts
with `'/'`, which Python guarantees). -/
theorem normalize_path_idempotent (cwd parent p : String)
    (hcwd : isAbsL cwd.data = true) :
    normalize_path cwd parent (normalize_path cwd parent p) =
      normalize_path cwd parent p := by
  by_cases hp : '/' ∈ p.data
  · have hstep : normalize_path cwd parent p =
        ⟨rstripSlashL (abspath cwd ⟨pyjoinL parent.data p.data⟩).data⟩ := by
      show String.mk (rstripSlashL (if '/' ∈ p.data then
          abspath cwd ⟨pyjoinL parent.data p.data⟩ else p).data) = _
      rw [if_pos hp]
    obtain ⟨u, hu, habs⟩ := abspath_normpathL cwd ⟨pyjoinL parent.data p.data⟩ hcwd
    obtain ⟨comps, hgood, hk1, hk2, hform⟩ := normpathL_abs_form hu
    rw [habs, show (⟨normpathL u⟩ : String).data = normpathL u from rfl, hform] at hstep
    by_cases hcomps : comps = []
    · subst hcomps
      rw [show joinSlash [] = [] from rfl, List.append_nil, rstripSlashL_replicate] at hstep
      rw [hstep]
      exact normalize_path_no_slash cwd parent ⟨[]⟩ (List.not_mem_nil '/')
    · obtain ⟨hq, hfix⟩ := normalize_path_fixed_abs cwd parent hk1 hk2 hcomps hgood
      rw [hq] at hstep
      rw [hstep]
      exact hfix
  · have h1 := normalize_path_no_slash cwd parent p hp
    rw [h1, h1]

theorem normalize_path_idempotent_witness :
    isAbsL "/cwd".data = true ∧
    normalize_path "/cwd" "." (normalize_path "/cwd" "." "a/b") =
      normalize_path "/cwd" "." "a/b" :=
  ⟨by decide, normalize_path_idempotent "/cwd" "." "a/b" (by decide)⟩

end Flake8
